import Mathlib

/-!
# MindGambit JNI bridge: line queues and stream adapters

A shallow embedding of `app/src/main/jni/bridge.cpp`.

* `char` is a byte (`Fin 256`, the value of the object as `unsigned char`);
  `int` is `Int`; `std::string` is a list of bytes; `std::queue<std::string>`
  is a list whose head is `front()` and whose tail end is where `push` puts.
* A `const char*` C string is given by its content, the bytes before the
  terminating NUL, so it contains no NUL byte (`CStr`).
* A `java.lang.String` is the list of its UTF-16 code units (`JString`).
  `NewStringUTF` is the JNI function of that name: it makes the string whose
  modified UTF-8 form is the C string it is given, and JNI defines no result
  when the C string is not the modified UTF-8 form of any string.
* Each critical section (the code between taking a `std::unique_lock` and
  releasing it) is one atomic transition of the process state `Bridge`.
  `inputCv.wait` on an empty queue is a transition that is not enabled
  (`none`); `outputCv.wait_for` is taken at the moment it returns, with the
  value its predicate has then.  Elapsed time is not represented.
-/

namespace MindGambit

/-! ## Characters and strings -/

/-- A `char`, by its value as `unsigned char`. -/
abbrev CChar := Fin 256

/-- The type `std::string`. -/
abbrev Line := List CChar

/-- The constant `EOF` of `<cstdio>`, which is `traits_type::eof()`. -/
def EOF : Int := -1

/-- The character `'\n'`. -/
def newline : CChar := 10

/-- The character `'\0'`, terminator of a C string. -/
def NUL : CChar := 0

/-- The conversion `traits_type::to_int_type(ch)`: the character as `unsigned char`,
widened to `int`. -/
def to_int_type (ch : CChar) : Int := (ch.val : Int)

/-- The conversion `static_cast<char>(c)` of an `int c`: reduction modulo `2^8`. -/
def static_cast_char (c : Int) : CChar :=
  ⟨(c % 256).toNat, by omega⟩

/-- The content of a NUL-terminated `const char*`: bytes, none of them NUL. -/
abbrev CStr := { bytes : List CChar // NUL ∉ bytes }

/-- The constructor `std::string(const char*)`: copies the content of the C string. -/
def string_of_cstr (cmd : CStr) : Line := cmd.val

/-- The pointer `s.c_str()` read as a C string, as `NewStringUTF` reads it: the
bytes of `s` before its first NUL. -/
def c_str (s : Line) : CStr :=
  ⟨s.takeWhile (fun ch => decide (ch ≠ NUL)), by
    intro h
    have := List.mem_takeWhile_imp h
    simp at this⟩

/-- The string literal `"quit"`. -/
def quit : CStr := ⟨[113, 117, 105, 116], by decide⟩

/-! ## Java strings and modified UTF-8 -/

/-- A Java `char`: one UTF-16 code unit. -/
abbrev JChar := Fin 65536

/-- The content of a `java.lang.String`. -/
abbrev JString := List JChar

/-- The byte with value `n`, for `n < 256`. -/
def byte (n : Nat) : CChar := ⟨n % 256, by omega⟩

/-- The modified UTF-8 form of one code unit: one byte for `1..0x7F`, two bytes
for `0` and `0x80..0x7FF`, three bytes above. -/
def encodeUnit (u : JChar) : List CChar :=
  if 1 ≤ u.val ∧ u.val ≤ 127 then [byte u.val]
  else if u.val ≤ 2047 then [byte (192 + u.val / 64), byte (128 + u.val % 64)]
  else [byte (224 + u.val / 4096), byte (128 + u.val / 64 % 64), byte (128 + u.val % 64)]

/-- The modified UTF-8 form of a Java string. -/
def encode (j : JString) : List CChar := j.flatMap encodeUnit

/-- Reads one code unit from the front of a byte sequence, by the length its
first byte announces. -/
def decodeUnit : List CChar → Option (JChar × List CChar)
  | [] => none
  | b0 :: rest =>
    if b0.val < 128 then some (⟨b0.val, by omega⟩, rest)
    else if b0.val < 224 then
      match rest with
      | b1 :: rest1 => some (⟨b0.val % 32 * 64 + b1.val % 64, by omega⟩, rest1)
      | [] => none
    else
      match rest with
      | b1 :: b2 :: rest2 =>
        some (⟨b0.val % 16 * 4096 + b1.val % 64 * 64 + b2.val % 64, by omega⟩, rest2)
      | _ => none

/-- Reads code units until the bytes are used up; `fuel` bounds the number of units. -/
def decodeUnits : Nat → List CChar → Option JString
  | _, [] => some []
  | 0, _ :: _ => none
  | fuel + 1, b0 :: rest =>
    match decodeUnit (b0 :: rest) with
    | none => none
    | some (u, rest1) => (decodeUnits fuel rest1).map (fun j => u :: j)

/-- The Java string whose modified UTF-8 form is `bytes`; `none` when `bytes` is
the modified UTF-8 form of no string. -/
def decode (bytes : List CChar) : Option JString :=
  match decodeUnits bytes.length bytes with
  | some j => if encode j = bytes then some j else none
  | none => none

/-- The JNI function `NewStringUTF` on a C string.  `none`: the argument is not
modified UTF-8, and JNI does not define the result. -/
def NewStringUTF (bytes : CStr) : Option JString :=
  decode bytes.val

/-- The value a call of `nativeReadLine` hands back: `nullptr`, the `jstring`
made by `NewStringUTF`, or whatever `NewStringUTF` makes of an argument that is
not modified UTF-8. -/
inductive Returned where
  | null
  | string (content : JString)
  | unspecified
deriving DecidableEq, Repr

/-- The outcome of `NewStringUTF` as a returned value. -/
def Returned.ofNewStringUTF : Option JString → Returned
  | some j => Returned.string j
  | none => Returned.unspecified

/-! ## State -/

/-- An `InputBuffer` object: `currentLine` and the get area of the
`std::streambuf` base, as offsets into `currentLine`. -/
structure InputBuffer where
  currentLine : Line
  eback : Nat
  gptr : Nat
  egptr : Nat
deriving DecidableEq, Repr

/-- An `OutputBuffer` object. -/
structure OutputBuffer where
  lineBuffer : Line
deriving DecidableEq, Repr

/-- A default-constructed `InputBuffer`: empty string, null get area. -/
def InputBuffer.new : InputBuffer :=
  { currentLine := [], eback := 0, gptr := 0, egptr := 0 }

/-- A default-constructed `OutputBuffer`. -/
def OutputBuffer.new : OutputBuffer :=
  { lineBuffer := [] }

/-- The readable chunk of an `InputBuffer`: the characters from `gptr` up to `egptr`. -/
def InputBuffer.getArea (b : InputBuffer) : Line :=
  (b.currentLine.take b.egptr).drop b.gptr

/-- The file-scope state of `bridge.cpp`.  `inputBuf` and `outputBuf` are the
two static pointers together with the objects they point to (`none` is
`nullptr`); `engineThread` counts the worker threads that were started;
`cinRdbuf` and `coutRdbuf` say whether `std::cin` and `std::cout` have been
given the bridge buffers. -/
structure Bridge where
  inputQueue : List Line
  outputQueue : List Line
  engineRunning : Bool
  engineThread : Nat
  inputBuf : Option InputBuffer
  outputBuf : Option OutputBuffer
  cinRdbuf : Bool
  coutRdbuf : Bool
deriving DecidableEq, Repr

/-- The state after static initialisation. -/
def Bridge.initial : Bridge :=
  { inputQueue := [], outputQueue := [], engineRunning := false, engineThread := 0,
    inputBuf := none, outputBuf := none, cinRdbuf := false, coutRdbuf := false }

/-! ## Stream buffers -/

/-- The method `InputBuffer::underflow()` on the object behind `inputBuf`.  `none`: there
is no such object, or the queue is empty and `inputCv.wait` does not return. -/
def InputBuffer.underflow (s : Bridge) : Option (Int × Bridge) :=
  match s.inputBuf, s.inputQueue with
  | some _, front :: rest =>
    let currentLine : Line := front ++ [newline]
    some (to_int_type (currentLine.getD 0 NUL),
      { s with
        inputQueue := rest
        inputBuf := some
          { currentLine := currentLine, eback := 0, gptr := 0, egptr := currentLine.length } })
  | _, _ => none

/-- The method `OutputBuffer::overflow(int c)` on the object behind `outputBuf`.  `none`:
there is no such object. -/
def OutputBuffer.overflow (s : Bridge) (c : Int) : Option (Int × Bridge) :=
  match s.outputBuf with
  | none => none
  | some this =>
    if c ≠ EOF then
      if c = to_int_type newline then
        some (c, { s with
          outputQueue := s.outputQueue ++ [this.lineBuffer]
          outputBuf := some { lineBuffer := [] } })
      else
        some (c, { s with
          outputBuf := some { lineBuffer := this.lineBuffer ++ [static_cast_char c] } })
    else
      some (c, s)

/-! ## JNI entry points -/

/-- The operation inside the `try` block of `nativeInit` that throws, if any. -/
inductive InitThrow where
  | newInputBuffer
  | newOutputBuffer
  | thread
deriving DecidableEq, Repr

/-- The JNI function `nativeInit`; `throws` says which construction raises, if
any.  Returns the `jboolean` and the state: an exception leaves the `try` block
at the throwing statement, with the effects of the statements before it, and
the `catch` block only logs and returns `JNI_FALSE`. -/
def nativeInit (s : Bridge) (throws : Option InitThrow) : Bool × Bridge :=
  if throws = some InitThrow.newInputBuffer then (false, s) else
  let s1 := { s with inputBuf := some InputBuffer.new }
  if throws = some InitThrow.newOutputBuffer then (false, s1) else
  let s2 := { s1 with outputBuf := some OutputBuffer.new }
  let s3 := { s2 with cinRdbuf := true, coutRdbuf := true }
  let s4 := { s3 with engineRunning := true }
  if throws = some InitThrow.thread then (false, s4) else
  (true, { s4 with engineThread := s4.engineThread + 1 })

/-- The JNI function `nativeSendCommand`, from the C string `cmd` that
`GetStringUTFChars` gives. -/
def nativeSendCommand (s : Bridge) (cmd : CStr) : Bridge :=
  { s with inputQueue := s.inputQueue ++ [string_of_cstr cmd] }

/-- The JNI function `nativeReadLine`.  `received` is what `outputCv.wait_for`
returns: the value of its predicate when the wait ends. -/
def nativeReadLine (s : Bridge) : Returned × Bridge :=
  let received := !s.outputQueue.isEmpty
  if !received || s.outputQueue.isEmpty then (Returned.null, s)
  else
    match s.outputQueue with
    | [] => (Returned.null, s)
    | line :: rest =>
      (Returned.ofNewStringUTF (NewStringUTF (c_str line)), { s with outputQueue := rest })

/-- The JNI function `nativeDestroy`.  The write to `engineRunning` comes before the
lock is taken; no function reads that flag, so the write and the push are one
transition. -/
def nativeDestroy (s : Bridge) : Bridge :=
  { s with
    engineRunning := false
    inputQueue := s.inputQueue ++ [string_of_cstr quit] }

/-! ## Sequences of operations -/

/-- The calls `sendCommand(l1)`, ..., `sendCommand(ln)`, in this order. -/
def sendAll (s : Bridge) (ls : List CStr) : Bridge :=
  ls.foldl nativeSendCommand s

/-- The chunk that the object behind `inputBuf` exposes to its reader. -/
def exposed (s : Bridge) : Line :=
  match s.inputBuf with
  | some b => b.getArea
  | none => []

/-- Runs `n` successive calls of `InputBuffer::underflow`; for each call, the
value returned and the chunk exposed after it.  `none` when one of the calls
does not return. -/
def pulls : Nat → Bridge → Option (List (Int × Line) × Bridge)
  | 0, s => some ([], s)
  | n + 1, s =>
    match InputBuffer.underflow s with
    | none => none
    | some (c, s1) =>
      match pulls n s1 with
      | none => none
      | some (rest, s2) => some ((c, exposed s1) :: rest, s2)

/-- What a pull that dequeues `l` returns and exposes: the first character of
`l` followed by a newline, and that whole chunk. -/
def pulled (l : Line) : Int × Line :=
  (to_int_type ((l ++ [newline]).getD 0 NUL), l ++ [newline])

/-- Writes the characters `cs` one by one: `overflow(to_int_type(ch))` for each,
as `std::streambuf::sputc` does with no put area. -/
def writeChars : Bridge → List CChar → Option Bridge
  | s, [] => some s
  | s, ch :: cs =>
    match OutputBuffer.overflow s (to_int_type ch) with
    | none => none
    | some (_, s1) => writeChars s1 cs

/-- Runs `n` successive calls of `nativeReadLine`, collecting the results. -/
def readLines : Nat → Bridge → List Returned × Bridge
  | 0, s => ([], s)
  | n + 1, s =>
    let r := nativeReadLine s
    let rs := readLines n r.2
    (r.1 :: rs.1, rs.2)

/-- The text `w1 '\n' w2 '\n' ... wn '\n'`. -/
def terminated (ws : List Line) : List CChar :=
  ws.flatMap (fun w => w ++ [newline])

/-! ## Interleaved executions -/

/-- The atomic steps of an execution: a caller's `sendCommand`, a worker pull
(`InputBuffer::underflow`), a worker write of one character
(`OutputBuffer::overflow`), a caller's `nativeReadLine`, a caller's `nativeDestroy`. -/
inductive Step where
  | sendCommand (cmd : CStr)
  | underflow
  | overflow (ch : CChar)
  | readLine
  | destroy
deriving DecidableEq, Repr

/-- What an observer of an execution has seen so far: the lines pushed onto the
Input Queue, the chunks exposed to the worker, the characters the worker wrote,
and the values `nativeReadLine` returned (a `nullptr` result is not recorded). -/
structure History where
  pushed : List Line
  handed : List Line
  written : List CChar
  returned : List Returned
deriving DecidableEq, Repr

/-- The history of an execution that has not started. -/
def History.empty : History :=
  { pushed := [], handed := [], written := [], returned := [] }

/-- One atomic step, with its observation.  `none`: the step is not enabled
(a pull on an empty queue, or a worker step with no adapter). -/
def step (s : Bridge) (h : History) : Step → Option (Bridge × History)
  | Step.sendCommand cmd =>
    some (nativeSendCommand s cmd, { h with pushed := h.pushed ++ [cmd.val] })
  | Step.underflow =>
    match InputBuffer.underflow s with
    | none => none
    | some (_, s1) => some (s1, { h with handed := h.handed ++ [exposed s1] })
  | Step.overflow ch =>
    match OutputBuffer.overflow s (to_int_type ch) with
    | none => none
    | some (_, s1) => some (s1, { h with written := h.written ++ [ch] })
  | Step.readLine =>
    match nativeReadLine s with
    | (Returned.null, s1) => some (s1, h)
    | (r, s1) => some (s1, { h with returned := h.returned ++ [r] })
  | Step.destroy =>
    some (nativeDestroy s, { h with pushed := h.pushed ++ [quit.val] })

/-- An execution: the steps taken one after the other, in the order in which
the locks serialise them. -/
def exec (s : Bridge) (h : History) : List Step → Option (Bridge × History)
  | [] => some (s, h)
  | st :: rest =>
    match step s h st with
    | none => none
    | some (s1, h1) => exec s1 h1 rest

/-- Scans a text for its newline-terminated lines; `cur` is the line begun so far. -/
def completeLinesFrom (cur : Line) : List CChar → List Line
  | [] => []
  | ch :: cs =>
    if ch = newline then cur :: completeLinesFrom [] cs
    else completeLinesFrom (cur ++ [ch]) cs

/-- The newline-terminated lines of a text, in order, each without its newline;
characters after the last newline belong to no line. -/
def completeLines (text : List CChar) : List Line :=
  completeLinesFrom [] text

/-- The line buffer of the object behind `outputBuf`. -/
def pendingLine (s : Bridge) : Line :=
  match s.outputBuf with
  | some ob => ob.lineBuffer
  | none => []

/-- A sample execution: `sendCommand("go")`, the worker writes `o`, pulls, writes
`k` and a newline, then `destroy` and two `nativeReadLine` calls. -/
def sampleRun : List Step :=
  [Step.sendCommand ⟨[103, 111], by decide⟩, Step.overflow 111, Step.underflow,
    Step.overflow 107, Step.overflow 10, Step.destroy, Step.readLine, Step.readLine]

/-- The relation between a state and the history of the execution that led to it. -/
def Consistent (s : Bridge) (h : History) : Prop :=
  (∃ delivered : List Line,
    h.handed = delivered.map (fun l => l ++ [newline]) ∧
    h.pushed = delivered ++ s.inputQueue) ∧
  (∃ taken : List Line,
    h.returned = taken.map (fun l => Returned.ofNewStringUTF (NewStringUTF (c_str l))) ∧
    h.written = terminated (taken ++ s.outputQueue) ++ pendingLine s ∧
    (∀ l ∈ taken ++ s.outputQueue, newline ∉ l) ∧
    newline ∉ pendingLine s)

/-! ## Input direction -/

theorem sendAll_eq (ls : List CStr) (s : Bridge) :
    sendAll s ls = { s with inputQueue := s.inputQueue ++ ls.map Subtype.val } := by
  induction ls generalizing s with
  | nil => simp [sendAll]
  | cons l ls ih =>
    have h := ih (nativeSendCommand s l)
    simp only [sendAll, List.foldl_cons] at h ⊢
    rw [h]
    simp [nativeSendCommand, string_of_cstr]

theorem underflow_cons (s : Bridge) (b : InputBuffer) (front : Line) (rest : List Line)
    (hb : s.inputBuf = some b) (hq : s.inputQueue = front :: rest) :
    InputBuffer.underflow s = some (to_int_type ((front ++ [newline]).getD 0 NUL),
      { s with
        inputQueue := rest
        inputBuf := some { currentLine := front ++ [newline], eback := 0, gptr := 0,
                           egptr := (front ++ [newline]).length } }) := by
  simp [InputBuffer.underflow, hb, hq]

theorem exposed_after (s : Bridge) (q : List Line) (l : Line) :
    exposed { s with
      inputQueue := q
      inputBuf := some { currentLine := l, eback := 0, gptr := 0, egptr := l.length } } = l := by
  simp [exposed, InputBuffer.getArea]

/-- With an adapter present, `k` pulls on a queue holding at least `k` lines all
return; they expose the first `k` lines, newline-terminated, in order, and leave
the remaining lines in the queue, touching nothing but the queue and the adapter. -/
theorem pulls_take (k : Nat) (q : List Line) (s : Bridge) (b : InputBuffer)
    (hb : s.inputBuf = some b) (hq : s.inputQueue = q) (hk : k ≤ q.length) :
    ∃ s1 b1, pulls k s = some ((q.take k).map pulled, s1) ∧ s1.inputQueue = q.drop k ∧
      s1.inputBuf = some b1 ∧ s1.outputQueue = s.outputQueue ∧
      s1.outputBuf = s.outputBuf ∧ s1.engineRunning = s.engineRunning ∧
      s1.engineThread = s.engineThread := by
  induction k generalizing q s b with
  | zero => exact ⟨s, b, by simp [pulls], by simpa using hq, hb, rfl, rfl, rfl, rfl⟩
  | succ n ih =>
    match q, hq, hk with
    | front :: rest, hq, hk =>
      have hu := underflow_cons s b front rest hb hq
      obtain ⟨s1, b1, hp, h1, h2, h3, h4, h5, h6⟩ :=
        ih rest { s with
            inputQueue := rest
            inputBuf := some { currentLine := front ++ [newline], eback := 0, gptr := 0,
                               egptr := (front ++ [newline]).length } }
          _ rfl rfl (by simpa using hk)
      refine ⟨s1, b1, ?_, by simpa using h1, h2, by simpa using h3, by simpa using h4,
        by simpa using h5, by simpa using h6⟩
      rw [pulls, hu]
      simp only [hp, exposed_after]
      simp [pulled]

/-! ## Output direction -/

theorem to_int_type_ne_EOF (ch : CChar) : to_int_type ch ≠ EOF := by
  simp only [to_int_type, EOF]
  omega

theorem to_int_type_inj (a b : CChar) : to_int_type a = to_int_type b ↔ a = b := by
  simp only [to_int_type]
  constructor
  · intro h
    exact Fin.ext (by exact_mod_cast h)
  · intro h
    rw [h]

theorem static_cast_char_to_int_type (ch : CChar) : static_cast_char (to_int_type ch) = ch := by
  apply Fin.ext
  simp only [static_cast_char, to_int_type]
  have := ch.isLt
  omega

theorem overflow_newline (s : Bridge) (ob : OutputBuffer) (hb : s.outputBuf = some ob) :
    OutputBuffer.overflow s (to_int_type newline) = some (to_int_type newline,
      { s with
        outputQueue := s.outputQueue ++ [ob.lineBuffer]
        outputBuf := some { lineBuffer := [] } }) := by
  simp [OutputBuffer.overflow, hb, to_int_type_ne_EOF]

theorem overflow_other (s : Bridge) (ob : OutputBuffer) (ch : CChar)
    (hb : s.outputBuf = some ob) (hc : ch ≠ newline) :
    OutputBuffer.overflow s (to_int_type ch) = some (to_int_type ch,
      { s with outputBuf := some { lineBuffer := ob.lineBuffer ++ [ch] } }) := by
  simp [OutputBuffer.overflow, hb, to_int_type_ne_EOF, to_int_type_inj, hc,
    static_cast_char_to_int_type]

/-- Characters other than a newline only grow the line buffer. -/
theorem writeChars_no_newline (cs : List CChar) (s : Bridge) (ob : OutputBuffer)
    (hb : s.outputBuf = some ob) (hcs : newline ∉ cs) :
    writeChars s cs = some { s with outputBuf := some { lineBuffer := ob.lineBuffer ++ cs } } := by
  induction cs generalizing s ob with
  | nil =>
    simp only [writeChars, List.append_nil]
    congr 1
    cases s
    simp_all
  | cons ch cs ih =>
    have hc : ch ≠ newline := fun h => hcs (by simp [h])
    have hcs1 : newline ∉ cs := fun h => hcs (by simp [h])
    rw [writeChars, overflow_other s ob ch hb hc]
    simp only
    rw [ih _ { lineBuffer := ob.lineBuffer ++ [ch] } rfl hcs1]
    simp

theorem nativeReadLine_nil (s : Bridge) (hq : s.outputQueue = []) :
    nativeReadLine s = (Returned.null, s) := by
  simp [nativeReadLine, hq]

theorem nativeReadLine_cons (s : Bridge) (line : Line) (rest : List Line)
    (hq : s.outputQueue = line :: rest) :
    nativeReadLine s =
      (Returned.ofNewStringUTF (NewStringUTF (c_str line)), { s with outputQueue := rest }) := by
  simp [nativeReadLine, hq]

/-- The results of `n` successive `nativeReadLine` calls: what `NewStringUTF`
makes of the first `n` queued lines, then `nullptr` once the queue is exhausted. -/
theorem readLines_eq (n : Nat) (s : Bridge) :
    readLines n s =
      ((s.outputQueue.take n).map (fun l => Returned.ofNewStringUTF (NewStringUTF (c_str l)))
          ++ List.replicate (n - s.outputQueue.length) Returned.null,
        { s with outputQueue := s.outputQueue.drop n }) := by
  induction n generalizing s with
  | zero => simp [readLines]
  | succ n ih =>
    cases hq : s.outputQueue with
    | nil =>
      simp only [readLines, nativeReadLine_nil s hq, ih, hq]
      simp [List.replicate_succ]
    | cons line rest =>
      simp only [readLines, nativeReadLine_cons s line rest hq, ih]
      simp

/-! ## C strings -/

theorem c_str_val_of_no_NUL (w : Line) (hw : NUL ∉ w) : (c_str w).val = w := by
  simp only [c_str]
  rw [List.takeWhile_eq_self_iff]
  intro ch hch
  have hne : ch ≠ NUL := fun h => hw (h ▸ hch)
  simpa using hne

theorem byte_val (n : Nat) (h : n < 256) : (byte n).val = n := by
  simp only [byte]
  omega

theorem encodeUnit_ne_nil (u : JChar) : encodeUnit u ≠ [] := by
  unfold encodeUnit
  split_ifs <;> simp

theorem NUL_not_mem_encodeUnit (u : JChar) : NUL ∉ encodeUnit u := by
  have hu := u.isLt
  have key : ∀ n, 0 < n → n < 256 → NUL ≠ byte n := by
    intro n h0 h1 h
    have := congrArg Fin.val h
    rw [byte_val n h1] at this
    simp [NUL] at this
    omega
  unfold encodeUnit
  split_ifs with h1 h2
  · simp only [List.mem_singleton]
    exact key _ (by omega) (by omega)
  · simp only [List.mem_cons, List.mem_singleton, List.mem_nil_iff, or_false, not_or]
    exact ⟨key _ (by omega) (by omega), key _ (by omega) (by omega)⟩
  · simp only [List.mem_cons, List.mem_singleton, List.mem_nil_iff, or_false, not_or]
    exact ⟨key _ (by omega) (by omega), key _ (by omega) (by omega), key _ (by omega) (by omega)⟩

/-- The modified UTF-8 form of a Java string has no NUL byte. -/
theorem NUL_not_mem_encode (j : JString) : NUL ∉ encode j := by
  simp only [encode, List.mem_flatMap, not_exists, not_and]
  intro u _
  exact NUL_not_mem_encodeUnit u

theorem decodeUnit_encodeUnit (u : JChar) (rest : List CChar) :
    decodeUnit (encodeUnit u ++ rest) = some (u, rest) := by
  have hu := u.isLt
  unfold encodeUnit
  split_ifs with h1 h2
  · have hb := byte_val u.val (by omega)
    simp only [List.singleton_append, decodeUnit, hb]
    rw [if_pos (by omega)]
  · have hb0 := byte_val (192 + u.val / 64) (by omega)
    have hb1 := byte_val (128 + u.val % 64) (by omega)
    simp only [List.cons_append, List.nil_append, decodeUnit, hb0, hb1]
    rw [if_neg (by omega), if_pos (by omega)]
    congr 2
    apply Fin.ext
    simp only
    omega
  · have hb0 := byte_val (224 + u.val / 4096) (by omega)
    have hb1 := byte_val (128 + u.val / 64 % 64) (by omega)
    have hb2 := byte_val (128 + u.val % 64) (by omega)
    simp only [List.cons_append, List.nil_append, decodeUnit, hb0, hb1, hb2]
    rw [if_neg (by omega), if_neg (by omega)]
    congr 2
    apply Fin.ext
    simp only
    omega

theorem decodeUnits_encode (j : JString) (fuel : Nat) (hf : (encode j).length ≤ fuel) :
    decodeUnits fuel (encode j) = some j := by
  induction j generalizing fuel with
  | nil => simp [encode, decodeUnits]
  | cons u j ih =>
    have he : encode (u :: j) = encodeUnit u ++ encode j := by simp [encode]
    rw [he] at hf ⊢
    have hne := encodeUnit_ne_nil u
    cases hu : encodeUnit u with
    | nil => exact absurd hu hne
    | cons b0 bs =>
      rw [hu] at hf
      cases fuel with
      | zero => simp at hf
      | succ n =>
        have hd := decodeUnit_encodeUnit u (encode j)
        rw [hu] at hd
        simp only [List.cons_append] at hd ⊢
        simp only [decodeUnits, hd]
        rw [ih n (by simp at hf; omega)]
        rfl

/-- Decoding the modified UTF-8 form of a string gives the string back. -/
theorem decode_encode (j : JString) : decode (encode j) = some j := by
  simp [decode, decodeUnits_encode j _ (Nat.le_refl _)]

/-- A queued line that is the modified UTF-8 form of `j` is returned as `j`. -/
theorem ofNewStringUTF_encode (j : JString) :
    Returned.ofNewStringUTF (NewStringUTF (c_str (encode j))) = Returned.string j := by
  have hv : (c_str (encode j)).val = encode j :=
    c_str_val_of_no_NUL (encode j) (NUL_not_mem_encode j)
  simp [NewStringUTF, hv, decode_encode, Returned.ofNewStringUTF]

/-- C1. After `sendCommand(l1)`, ..., `sendCommand(ln)` on an empty Input Queue,
with an Input Adapter present and no pull in between, the first `k` pulls
(`k ≤ n`) all return, expose exactly the chunks `l1 ++ "\n"`, ..., `lk ++ "\n"`
in this order, and leave exactly `l(k+1)`, ..., `ln` queued: each pull removes
one line from the head.  After `n` pulls the Input Queue is empty. -/
theorem C1_sent_lines_pulled_in_order (s : Bridge) (b : InputBuffer) (ls : List CStr)
    (hq : s.inputQueue = []) (hb : s.inputBuf = some b) :
    (∀ k, k ≤ ls.length → ∃ out s1, pulls k (sendAll s ls) = some (out, s1) ∧
        out.map Prod.snd = (ls.take k).map (fun l => l.val ++ [newline]) ∧
        s1.inputQueue = (ls.drop k).map Subtype.val) ∧
    (∃ out s1, pulls ls.length (sendAll s ls) = some (out, s1) ∧
        out.map Prod.snd = ls.map (fun l => l.val ++ [newline]) ∧
        s1.inputQueue = []) := by
  have key : ∀ k, k ≤ ls.length → ∃ out s1, pulls k (sendAll s ls) = some (out, s1) ∧
        out.map Prod.snd = (ls.take k).map (fun l => l.val ++ [newline]) ∧
        s1.inputQueue = (ls.drop k).map Subtype.val := by
    intro k hk
    have hs : (sendAll s ls).inputQueue = ls.map Subtype.val := by
      rw [sendAll_eq]
      simp [hq]
    have hb1 : (sendAll s ls).inputBuf = some b := by
      rw [sendAll_eq]
      exact hb
    obtain ⟨s1, _, hp, h1, _⟩ :=
      pulls_take k (ls.map Subtype.val) (sendAll s ls) b hb1 hs (by simpa using hk)
    refine ⟨_, s1, hp, ?_, ?_⟩
    · simp [List.map_take, pulled, Function.comp_def]
    · simpa [List.map_drop] using h1
  refine ⟨key, ?_⟩
  obtain ⟨out, s1, hp, h1, h2⟩ := key ls.length (Nat.le_refl _)
  exact ⟨out, s1, hp, by simpa using h1, by simpa using h2⟩

/-- Instance of C1: after a successful `nativeInit`, the commands `uci` and
`isready` are sent and pulled. -/
theorem C1_sent_lines_pulled_in_order_witness :
    (nativeInit Bridge.initial none).2.inputQueue = [] ∧
    (nativeInit Bridge.initial none).2.inputBuf = some InputBuffer.new ∧
    ∃ out s1,
      pulls 2 (sendAll (nativeInit Bridge.initial none).2
        [⟨[117, 99, 105], by decide⟩, ⟨[105, 115, 114, 101, 97, 100, 121], by decide⟩])
        = some (out, s1) ∧
      out.map Prod.snd = [[117, 99, 105, 10], [105, 115, 114, 101, 97, 100, 121, 10]] ∧
      s1.inputQueue = [] :=
  ⟨rfl, rfl,
    (C1_sent_lines_pulled_in_order (nativeInit Bridge.initial none).2 InputBuffer.new
      [⟨[117, 99, 105], by decide⟩, ⟨[105, 115, 114, 101, 97, 100, 121], by decide⟩]
      rfl rfl).2⟩

/-- C5 as stated fails: with `go` already queued, the dequeue that follows
`nativeDestroy` exposes `go\n`, not `quit\n`. -/
theorem C5_counterexample :
    (InputBuffer.underflow
        (nativeDestroy
          (nativeSendCommand (nativeInit Bridge.initial none).2 ⟨[103, 111], by decide⟩))).map
      (fun r => exposed r.2) = some [103, 111, 10] ∧
    ([103, 111, 10] : Line) ≠ [113, 117, 105, 116, 10] := by
  constructor
  · rfl
  · decide

/-- C5, amended. With an Input Adapter present and `k` lines in the Input Queue
when `nativeDestroy` is called, the next `k + 1` dequeues all return: the first
`k` expose the lines that were queued, in order, and the last one exposes
`quit\n` and leaves the queue empty.  With an empty Input Queue the very next
dequeue returns `'q'` and exposes `quit\n`. -/
theorem C5_quit_after_queued_lines (s : Bridge) (b : InputBuffer)
    (hb : s.inputBuf = some b) :
    (∃ out s1, pulls (s.inputQueue.length + 1) (nativeDestroy s) = some (out, s1) ∧
        out.map Prod.snd =
          s.inputQueue.map (fun l => l ++ [newline]) ++ [[113, 117, 105, 116, 10]] ∧
        s1.inputQueue = []) ∧
    (s.inputQueue = [] → ∃ s1, InputBuffer.underflow (nativeDestroy s) = some (113, s1) ∧
        exposed s1 = [113, 117, 105, 116, 10] ∧ s1.inputQueue = []) := by
  constructor
  · obtain ⟨s1, _, hp, h1, _⟩ :=
      pulls_take (s.inputQueue.length + 1) (s.inputQueue ++ [quit.val]) (nativeDestroy s) b
        (by simpa [nativeDestroy] using hb) (by simp [nativeDestroy, string_of_cstr])
        (by simp)
    refine ⟨_, s1, hp, ?_, by simpa using h1⟩
    have ht : List.take (s.inputQueue.length + 1) (s.inputQueue ++ [quit.val])
        = s.inputQueue ++ [quit.val] := by
      apply List.take_of_length_le
      simp
    rw [ht]
    simp only [List.map_append, List.map_map, List.map_cons, List.map_nil]
    congr 1
  · intro hq
    have hu := underflow_cons (nativeDestroy s) b quit.val []
      (by simpa [nativeDestroy] using hb) (by simp [nativeDestroy, string_of_cstr, hq])
    have hx := exposed_after (nativeDestroy s) [] (quit.val ++ [newline])
    exact ⟨_, hu, hx, rfl⟩

/-- Instance of C5 (amended): `nativeDestroy` right after a successful `nativeInit`. -/
theorem C5_quit_after_queued_lines_witness :
    (nativeInit Bridge.initial none).2.inputBuf = some InputBuffer.new ∧
    (nativeInit Bridge.initial none).2.inputQueue = [] ∧
    ∃ s1, InputBuffer.underflow (nativeDestroy (nativeInit Bridge.initial none).2)
        = some (113, s1) ∧
      exposed s1 = [113, 117, 105, 116, 10] ∧ s1.inputQueue = [] :=
  ⟨rfl, rfl,
    (C5_quit_after_queued_lines (nativeInit Bridge.initial none).2 InputBuffer.new rfl).2 rfl⟩

/-- C6. `nativeDestroy` appends the one line `quit` at the tail of the Input
Queue, keeping every queued line in place ahead of it, sets `engineRunning` to
false, and changes nothing else: the Output Queue, both adapters and the
worker thread count are as before. -/
theorem C6_destroy_frame (s : Bridge) :
    (nativeDestroy s).inputQueue = s.inputQueue ++ [[113, 117, 105, 116]] ∧
    (nativeDestroy s).engineRunning = false ∧
    (nativeDestroy s).outputQueue = s.outputQueue ∧
    (nativeDestroy s).outputBuf = s.outputBuf ∧
    (nativeDestroy s).inputBuf = s.inputBuf ∧
    (nativeDestroy s).engineThread = s.engineThread :=
  ⟨rfl, rfl, rfl, rfl, rfl, rfl⟩


/-- C10. The locks serialise concurrent `sendCommand` calls in some order
`sched`, a permutation of the lines pushed.  Whatever that order, with an
Input Adapter present and the Input Queue empty beforehand, the `N` pulls that
follow all return, the chunks they expose are the `N` newline-terminated lines,
each as many times as it was pushed (a permutation of them), and the Input
Queue is then empty. -/
theorem C10_concurrent_sends_all_observed (s : Bridge) (b : InputBuffer)
    (lines sched : List CStr) (hq : s.inputQueue = []) (hb : s.inputBuf = some b)
    (hs : sched.Perm lines) :
    ∃ out s1, pulls lines.length (sendAll s sched) = some (out, s1) ∧
      (out.map Prod.snd).Perm (lines.map (fun l => l.val ++ [newline])) ∧
      s1.inputQueue = [] := by
  have hsq : (sendAll s sched).inputQueue = sched.map Subtype.val := by
    rw [sendAll_eq]
    simp [hq]
  have hsb : (sendAll s sched).inputBuf = some b := by
    rw [sendAll_eq]
    exact hb
  have hlen : lines.length = (sched.map Subtype.val).length := by
    rw [List.length_map, hs.length_eq]
  obtain ⟨s1, _, hp, h1, _⟩ :=
    pulls_take lines.length (sched.map Subtype.val) (sendAll s sched) b hsb hsq
      (Nat.le_of_eq hlen)
  refine ⟨_, s1, hp, ?_, ?_⟩
  · rw [hlen, List.take_length]
    have hm : List.map Prod.snd (List.map pulled (List.map Subtype.val sched))
        = sched.map (fun l => l.val ++ [newline]) := by
      simp [pulled, Function.comp_def]
    rw [hm]
    exact hs.map _
  · rw [h1, hlen, List.drop_length]

/-- Instance of C10: `uci` and `isready` are pushed, and the lock lets
`isready` in first. -/
theorem C10_concurrent_sends_all_observed_witness :
    (nativeInit Bridge.initial none).2.inputQueue = [] ∧
    (nativeInit Bridge.initial none).2.inputBuf = some InputBuffer.new ∧
    ∃ out s1,
      pulls 2 (sendAll (nativeInit Bridge.initial none).2
        [⟨[105, 115, 114, 101, 97, 100, 121], by decide⟩, ⟨[117, 99, 105], by decide⟩])
        = some (out, s1) ∧
      (out.map Prod.snd).Perm [[117, 99, 105, 10], [105, 115, 114, 101, 97, 100, 121, 10]] ∧
      s1.inputQueue = [] :=
  ⟨rfl, rfl,
    C10_concurrent_sends_all_observed (nativeInit Bridge.initial none).2 InputBuffer.new
      [⟨[117, 99, 105], by decide⟩, ⟨[105, 115, 114, 101, 97, 100, 121], by decide⟩]
      [⟨[105, 115, 114, 101, 97, 100, 121], by decide⟩, ⟨[117, 99, 105], by decide⟩]
      rfl rfl (List.Perm.swap _ _ _)⟩

/-! ## Claims on the output direction -/

/-- C3. With an Output Adapter present, writing characters none of which is a
newline always succeeds, leaves the Output Queue (and the Input Queue, the
Input Adapter and the running flag) exactly as it was, and only appends the
characters to the line buffer; so any number of subsequent `nativeReadLine`
calls return what they would have returned before the write. -/
theorem C3_partial_line_not_delivered (s : Bridge) (ob : OutputBuffer) (cs : List CChar)
    (hb : s.outputBuf = some ob) (hcs : newline ∉ cs) :
    ∃ s1, writeChars s cs = some s1 ∧
      s1.outputQueue = s.outputQueue ∧
      s1.outputBuf = some { lineBuffer := ob.lineBuffer ++ cs } ∧
      s1.inputQueue = s.inputQueue ∧ s1.inputBuf = s.inputBuf ∧
      s1.engineRunning = s.engineRunning ∧
      ∀ n, (readLines n s1).1 = (readLines n s).1 := by
  refine ⟨_, writeChars_no_newline cs s ob hb hcs, rfl, rfl, rfl, rfl, rfl, ?_⟩
  intro n
  rw [readLines_eq, readLines_eq]

/-- Instance of C3: the worker writes `info` with no newline after `ok\n`. -/
theorem C3_partial_line_not_delivered_witness :
    ∃ s, writeChars (nativeInit Bridge.initial none).2 [111, 107, 10] = some s ∧
      s.outputBuf = some OutputBuffer.new ∧
      newline ∉ ([105, 110, 102, 111] : List CChar) ∧
      ∃ s1, writeChars s [105, 110, 102, 111] = some s1 ∧
        s1.outputQueue = s.outputQueue ∧
        s1.outputBuf = some { lineBuffer := [105, 110, 102, 111] } ∧
        ∀ n, (readLines n s1).1 = (readLines n s).1 :=
  ⟨_, rfl, rfl, by decide,
    (C3_partial_line_not_delivered _ OutputBuffer.new [105, 110, 102, 111] rfl
      (by decide)).imp
      (fun _ h => ⟨h.1, h.2.1, h.2.2.1, h.2.2.2.2.2.2⟩)⟩

/-- C8. With an Input Adapter present, `sendCommand("")` appends one empty line
to the Input Queue, and the pull that dequeues it (the one after the pulls of
the lines queued ahead of it) returns `'\n'`, which is not `EOF`, and exposes
the one-character chunk `"\n"`.  With an Output Adapter whose line buffer is
empty, writing a lone `'\n'` appends one empty line to the Output Queue, and
the `nativeReadLine` that dequeues it returns the empty string, not `nullptr`. -/
theorem C8_empty_lines_round_trip (s : Bridge) (ib : InputBuffer) (ob : OutputBuffer)
    (hi : s.inputBuf = some ib) (ho : s.outputBuf = some ob) (hl : ob.lineBuffer = []) :
    ((nativeSendCommand s ⟨[], by simp⟩).inputQueue = s.inputQueue ++ [[]] ∧
      ∃ out s1, pulls (s.inputQueue.length + 1) (nativeSendCommand s ⟨[], by simp⟩)
          = some (out, s1) ∧
        out.drop s.inputQueue.length = [(to_int_type newline, [newline])] ∧
        to_int_type newline ≠ EOF ∧ s1.inputQueue = []) ∧
    (∃ s1, OutputBuffer.overflow s (to_int_type newline) = some (to_int_type newline, s1) ∧
      s1.outputQueue = s.outputQueue ++ [[]] ∧
      (readLines (s.outputQueue.length + 1) s1).1.drop s.outputQueue.length
        = [Returned.string []] ∧
      Returned.string [] ≠ Returned.null ∧
      (readLines (s.outputQueue.length + 1) s1).2.outputQueue = []) := by
  constructor
  · refine ⟨rfl, ?_⟩
    obtain ⟨s1, _, hp, h1, _⟩ :=
      pulls_take (s.inputQueue.length + 1) (s.inputQueue ++ [[]])
        (nativeSendCommand s ⟨[], by simp⟩) ib
        (by simpa [nativeSendCommand] using hi) (by simp [nativeSendCommand, string_of_cstr])
        (by simp)
    refine ⟨_, s1, hp, ?_, to_int_type_ne_EOF newline, by simpa using h1⟩
    have ht : List.take (s.inputQueue.length + 1) (s.inputQueue ++ [[]])
        = s.inputQueue ++ [([] : Line)] := by
      apply List.take_of_length_le
      simp
    rw [ht, List.map_append, List.drop_left' (by simp)]
    rfl
  · refine ⟨_, overflow_newline s ob ho, by simp [hl], ?_, by simp, ?_⟩
    · rw [readLines_eq]
      simp only [hl]
      have ht : List.take (s.outputQueue.length + 1) (s.outputQueue ++ [[]])
          = s.outputQueue ++ [([] : Line)] := by
        apply List.take_of_length_le
        simp
      rw [ht, List.map_append, List.drop_append_of_le_length (by simp),
        List.drop_left' (by simp)]
      simp
      exact ofNewStringUTF_encode []
    · rw [readLines_eq]
      simp

/-- Instance of C8: right after a successful `nativeInit`. -/
theorem C8_empty_lines_round_trip_witness :
    (nativeInit Bridge.initial none).2.inputBuf = some InputBuffer.new ∧
    (nativeInit Bridge.initial none).2.outputBuf = some OutputBuffer.new ∧
    OutputBuffer.new.lineBuffer = [] ∧
    (∃ out s1, pulls 1 (nativeSendCommand (nativeInit Bridge.initial none).2 ⟨[], by simp⟩)
        = some (out, s1) ∧ out = [(10, [10])]) ∧
    (∃ s1, OutputBuffer.overflow (nativeInit Bridge.initial none).2 10 = some (10, s1) ∧
      (readLines 1 s1).1 = [Returned.string []]) :=
  have h := C8_empty_lines_round_trip (nativeInit Bridge.initial none).2
    InputBuffer.new OutputBuffer.new rfl rfl rfl
  ⟨rfl, rfl, rfl,
    h.1.2.imp (fun _ h1 => h1.imp (fun _ h2 => ⟨h2.1, h2.2.1⟩)),
    h.2.imp (fun _ h1 => ⟨h1.1, h1.2.2.1⟩)⟩

/-! ## Initialisation -/

/-- C9 as stated fails: when the `std::thread` constructor throws on a bridge
that was never initialised, `nativeInit` returns false with `engineRunning`
already set to true. -/
theorem C9_counterexample :
    Bridge.initial.engineRunning = false ∧
    (nativeInit Bridge.initial (some InitThrow.thread)).1 = false ∧
    (nativeInit Bridge.initial (some InitThrow.thread)).2.engineRunning = true :=
  ⟨rfl, rfl, rfl⟩

/-- C9, amended. Whichever construction throws, `nativeInit` returns false,
starts no worker thread and leaves both queues as they were; when the throwing
construction is that of an adapter, `engineRunning` keeps its value, so it is
still false on a bridge where it was false. -/
theorem C9_failed_init (s : Bridge) (t : InitThrow) :
    (nativeInit s (some t)).1 = false ∧
    (nativeInit s (some t)).2.engineThread = s.engineThread ∧
    (nativeInit s (some t)).2.inputQueue = s.inputQueue ∧
    (nativeInit s (some t)).2.outputQueue = s.outputQueue ∧
    (t ≠ InitThrow.thread →
      (nativeInit s (some t)).2.engineRunning = s.engineRunning) := by
  cases t <;> simp [nativeInit]


/-! ## Executions -/

theorem completeLinesFrom_no_newline (cs : List CChar) (cur : Line) (hcs : newline ∉ cs) :
    completeLinesFrom cur cs = [] := by
  induction cs generalizing cur with
  | nil => rfl
  | cons ch cs ih =>
    have hc : ch ≠ newline := fun h => hcs (by simp [h])
    have hcs1 : newline ∉ cs := fun h => hcs (by simp [h])
    simp [completeLinesFrom, hc, ih _ hcs1]

theorem completeLinesFrom_line (w : Line) (cur : Line) (more : List CChar)
    (hw : newline ∉ w) :
    completeLinesFrom cur (w ++ newline :: more) = (cur ++ w) :: completeLinesFrom [] more := by
  induction w generalizing cur with
  | nil => simp [completeLinesFrom]
  | cons ch w ih =>
    have hc : ch ≠ newline := fun h => hw (by simp [h])
    have hw1 : newline ∉ w := fun h => hw (by simp [h])
    simp [completeLinesFrom, hc, ih _ hw1]

/-- The complete lines of `w1 '\n' ... wn '\n'` followed by a newline-free rest
are `w1`, ..., `wn`. -/
theorem completeLines_terminated (ws : List Line) (rest : List CChar)
    (hws : ∀ w ∈ ws, newline ∉ w) (hr : newline ∉ rest) :
    completeLines (terminated ws ++ rest) = ws := by
  induction ws with
  | nil => simpa [completeLines, terminated] using completeLinesFrom_no_newline rest [] hr
  | cons w ws ih =>
    have hw : newline ∉ w := hws w (by simp)
    have hws1 : ∀ v ∈ ws, newline ∉ v := fun v hv => hws v (by simp [hv])
    have ht : terminated (w :: ws) ++ rest = w ++ newline :: (terminated ws ++ rest) := by
      simp [terminated]
    rw [completeLines, ht, completeLinesFrom_line w [] _ hw]
    simp only [List.nil_append]
    rw [← completeLines, ih hws1]

theorem step_consistent (s s1 : Bridge) (h h1 : History) (st : Step)
    (hc : Consistent s h) (hs : step s h st = some (s1, h1)) : Consistent s1 h1 := by
  obtain ⟨⟨delivered, hd1, hd2⟩, ⟨taken, ht1, ht2, ht3, ht4⟩⟩ := hc
  cases st with
  | sendCommand cmd =>
    simp only [step, Option.some.injEq, Prod.mk.injEq] at hs
    obtain ⟨rfl, rfl⟩ := hs
    refine ⟨⟨delivered, hd1, ?_⟩, ⟨taken, ht1, ht2, ht3, ht4⟩⟩
    simp [nativeSendCommand, string_of_cstr, hd2]
  | destroy =>
    simp only [step, Option.some.injEq, Prod.mk.injEq] at hs
    obtain ⟨rfl, rfl⟩ := hs
    refine ⟨⟨delivered, hd1, ?_⟩, ⟨taken, ht1, ht2, ht3, ht4⟩⟩
    simp [nativeDestroy, string_of_cstr, hd2]
  | underflow =>
    cases hb : s.inputBuf with
    | none => simp [step, InputBuffer.underflow, hb] at hs
    | some b =>
      cases hq : s.inputQueue with
      | nil => simp [step, InputBuffer.underflow, hb, hq] at hs
      | cons front rest =>
        simp only [step, underflow_cons s b front rest hb hq, exposed_after,
          Option.some.injEq, Prod.mk.injEq] at hs
        obtain ⟨rfl, rfl⟩ := hs
        refine ⟨⟨delivered ++ [front], by simp [hd1], by simp [hd2, hq]⟩,
          ⟨taken, ht1, ht2, ht3, ht4⟩⟩
  | overflow ch =>
    cases hb : s.outputBuf with
    | none => simp [step, OutputBuffer.overflow, hb] at hs
    | some ob =>
      have hp : pendingLine s = ob.lineBuffer := by simp [pendingLine, hb]
      rw [hp] at ht2 ht4
      by_cases hch : ch = newline
      · subst hch
        simp only [step, overflow_newline s ob hb, Option.some.injEq, Prod.mk.injEq] at hs
        obtain ⟨rfl, rfl⟩ := hs
        refine ⟨⟨delivered, hd1, hd2⟩, ⟨taken, ht1, ?_, ?_, by simp [pendingLine]⟩⟩
        · simp [ht2, pendingLine, terminated]
        · intro l hl
          simp only [List.mem_append, List.mem_singleton] at hl
          rcases hl with hl | hl | hl
          · exact ht3 l (by simp [hl])
          · exact ht3 l (by simp [hl])
          · rw [hl]
            exact ht4
      · simp only [step, overflow_other s ob ch hb hch, Option.some.injEq,
          Prod.mk.injEq] at hs
        obtain ⟨rfl, rfl⟩ := hs
        refine ⟨⟨delivered, hd1, hd2⟩, ⟨taken, ht1, ?_, ht3, ?_⟩⟩
        · simp [ht2, pendingLine]
        · simp only [pendingLine, List.mem_append, List.mem_singleton, not_or]
          exact ⟨ht4, fun hn => hch hn.symm⟩
  | readLine =>
    cases hq : s.outputQueue with
    | nil =>
      simp only [step, nativeReadLine_nil s hq, Option.some.injEq, Prod.mk.injEq] at hs
      obtain ⟨rfl, rfl⟩ := hs
      exact ⟨⟨delivered, hd1, hd2⟩, ⟨taken, ht1, ht2, ht3, ht4⟩⟩
    | cons line rest =>
      have hstep : step s h Step.readLine = some ({ s with outputQueue := rest },
          { h with returned :=
            h.returned ++ [Returned.ofNewStringUTF (NewStringUTF (c_str line))] }) := by
        simp only [step, nativeReadLine_cons s line rest hq]
        cases NewStringUTF (c_str line) <;> rfl
      rw [hstep] at hs
      simp only [Option.some.injEq, Prod.mk.injEq] at hs
      obtain ⟨rfl, rfl⟩ := hs
      rw [hq] at ht2 ht3
      refine ⟨⟨delivered, hd1, hd2⟩, ⟨taken ++ [line], by simp [ht1], ?_, ?_, ?_⟩⟩
      · simpa [pendingLine] using ht2
      · simpa using ht3
      · simpa [pendingLine] using ht4

theorem exec_consistent (steps : List Step) (s s1 : Bridge) (h h1 : History)
    (hc : Consistent s h) (he : exec s h steps = some (s1, h1)) : Consistent s1 h1 := by
  induction steps generalizing s h with
  | nil =>
    simp only [exec, Option.some.injEq, Prod.mk.injEq] at he
    obtain ⟨rfl, rfl⟩ := he
    exact hc
  | cons st rest ih =>
    simp only [exec] at he
    cases hst : step s h st with
    | none => simp [hst] at he
    | some r =>
      obtain ⟨s2, h2⟩ := r
      simp only [hst] at he
      exact ih s2 h2 (step_consistent s s2 h h2 st hc hst) he

/-- Which steps are enabled: the three JNI calls always are, a worker write is
as soon as there is an Output Adapter, and a worker pull is exactly when there
is an Input Adapter and the Input Queue is not empty. -/
theorem step_isSome_iff (s : Bridge) (h : History) (st : Step) :
    (step s h st).isSome ↔
      match st with
      | Step.underflow => s.inputBuf ≠ none ∧ s.inputQueue ≠ []
      | Step.overflow _ => s.outputBuf ≠ none
      | _ => True := by
  cases st with
  | sendCommand cmd => simp [step]
  | destroy => simp [step]
  | readLine =>
    cases hq : s.outputQueue with
    | nil => simp [step, nativeReadLine_nil s hq]
    | cons line rest =>
      simp only [step, nativeReadLine_cons s line rest hq]
      cases NewStringUTF (c_str line) <;> simp [Returned.ofNewStringUTF]
  | underflow =>
    cases hb : s.inputBuf with
    | none => simp [step, InputBuffer.underflow, hb]
    | some b =>
      cases hq : s.inputQueue with
      | nil => simp [step, InputBuffer.underflow, hb, hq]
      | cons front rest => simp [step, underflow_cons s b front rest hb hq]
  | overflow ch =>
    cases hb : s.outputBuf with
    | none => simp [step, OutputBuffer.overflow, hb]
    | some ob =>
      by_cases hch : ch = newline
      · subst hch
        simp [step, overflow_newline s ob hb]
      · simp [step, overflow_other s ob ch hb hch]

/-- C7 as stated fails: the worker writes `a`, NUL, `b`, newline and the caller
calls `nativeReadLine`; the only line the worker has written is the
three-character one, the value returned is the string `a`, and its modified
UTF-8 form is not a prefix of the lines written. -/
theorem C7_counterexample :
    ∃ s h, exec (nativeInit Bridge.initial none).2 History.empty
        [Step.overflow 97, Step.overflow 0, Step.overflow 98, Step.overflow 10,
          Step.readLine] = some (s, h) ∧
      h.returned = [Returned.string [97]] ∧
      completeLines h.written = [[97, 0, 98]] ∧
      ¬ ([encode [97]] <+: completeLines h.written) :=
  ⟨_, _, rfl, by decide, rfl, by decide⟩

/-- C7, amended. Take any execution made of the five atomic steps that starts
with both queues and the line buffer empty, and let `s` be the state and `h`
the history it reaches.  Input direction: the chunks handed to the worker are
the newline-terminated forms of a prefix `delivered` of the lines pushed, and
`delivered` followed by the Input Queue is the sequence of lines pushed.
Output direction: the lines `nativeReadLine` has removed are a prefix `taken`
of the newline-terminated lines the worker has written, `taken` followed by
the Output Queue is the sequence of those lines, and the values returned are,
in order, what `NewStringUTF` makes of the lines of `taken`, each cut at its
first NUL.  When the lines the worker has written are the modified UTF-8 forms
of Java strings (every NUL-free ASCII text is one), the values returned are
the strings of a prefix of them, and that prefix followed by the Output Queue
is the sequence of lines written. -/
theorem C7_fifo_exactly_once (s0 : Bridge) (steps : List Step) (s : Bridge) (h : History)
    (hi : s0.inputQueue = []) (ho : s0.outputQueue = []) (hp : pendingLine s0 = [])
    (he : exec s0 History.empty steps = some (s, h)) :
    (∃ delivered : List Line,
      h.handed = delivered.map (fun l => l ++ [newline]) ∧
      delivered <+: h.pushed ∧
      delivered ++ s.inputQueue = h.pushed) ∧
    (∃ taken : List Line,
      h.returned = taken.map (fun l => Returned.ofNewStringUTF (NewStringUTF (c_str l))) ∧
      taken <+: completeLines h.written ∧
      taken ++ s.outputQueue = completeLines h.written) ∧
    (∀ js : List JString, completeLines h.written = js.map encode →
      ∃ got : List JString,
        h.returned = got.map Returned.string ∧
        got.map encode <+: completeLines h.written ∧
        got.map encode ++ s.outputQueue = completeLines h.written) := by
  have h0 : Consistent s0 History.empty := by
    refine ⟨⟨[], rfl, by simp [History.empty, hi]⟩, ⟨[], rfl, ?_, ?_, ?_⟩⟩
    · simp [History.empty, ho, hp, terminated]
    · simp [ho]
    · simp [hp]
  obtain ⟨⟨delivered, hd1, hd2⟩, ⟨taken, ht1, ht2, ht3, ht4⟩⟩ :=
    exec_consistent steps s0 s History.empty h h0 he
  have hcl : completeLines h.written = taken ++ s.outputQueue := by
    rw [ht2]
    exact completeLines_terminated _ _ ht3 ht4
  refine ⟨⟨delivered, hd1, ⟨s.inputQueue, hd2.symm⟩, hd2.symm⟩,
    ⟨taken, ht1, ⟨s.outputQueue, hcl.symm⟩, hcl.symm⟩, ?_⟩
  intro js hjs
  have htk : taken = (js.take taken.length).map encode := by
    have h1 : (taken ++ s.outputQueue).take taken.length = taken := by simp
    rw [← hcl, hjs, ← List.map_take] at h1
    exact h1.symm
  refine ⟨js.take taken.length, ?_, ?_, ?_⟩
  · rw [ht1]
    conv_lhs => rw [htk]
    rw [List.map_map]
    apply List.map_congr_left
    intro j _
    exact ofNewStringUTF_encode j
  · rw [← htk]
    exact ⟨s.outputQueue, hcl.symm⟩
  · rw [← htk]
    exact hcl.symm

/-- Instance of C7 (amended): an interleaving of all five kinds of step after a
successful `nativeInit`; the worker has written the one line `ok`. -/
theorem C7_fifo_exactly_once_witness :
    (nativeInit Bridge.initial none).2.inputQueue = [] ∧
    (nativeInit Bridge.initial none).2.outputQueue = [] ∧
    pendingLine (nativeInit Bridge.initial none).2 = [] ∧
    ∃ s h, exec (nativeInit Bridge.initial none).2 History.empty sampleRun = some (s, h) ∧
      (∃ delivered : List Line,
        h.handed = delivered.map (fun l => l ++ [newline]) ∧
        delivered <+: h.pushed ∧
        delivered ++ s.inputQueue = h.pushed) ∧
      completeLines h.written = [encode [111, 107]] ∧
      ∃ got : List JString,
        h.returned = got.map Returned.string ∧
        got.map encode <+: completeLines h.written ∧
        got.map encode ++ s.outputQueue = completeLines h.written :=
  ⟨rfl, rfl, rfl, _, _, rfl,
    (C7_fifo_exactly_once (nativeInit Bridge.initial none).2 sampleRun _ _
      rfl rfl rfl rfl).1,
    rfl,
    (C7_fifo_exactly_once (nativeInit Bridge.initial none).2 sampleRun _ _
      rfl rfl rfl rfl).2.2 [[111, 107]] rfl⟩

end MindGambit
